import Mathlib

/-!
Verification of `src/information/data_processing.py`.

The Python module is shallowly embedded below:

* Python dicts with fixed key sets become structures with `Option`-valued
  fields (a missing key is `none`).
* Python lists become `List`, dict-shaped mappings become association lists.
* Python floats (salience values, similarity scores) are modelled as `ℚ`
  where the code only compares them, and the single use of `math.log`
  (`count_reduced`) as a real number via `Real.logb`.
* Fallible operations (list indexing that can raise `IndexError`, calls on an
  empty cluster) return `Option`, with `none` marking the raised exception.
* External collaborators (the Google NLP service, the spacy model, the gensim
  vector-space machinery) are not part of the module; their responses enter
  the embedded functions as explicit arguments, exactly at the boundary where
  the Python code consumes their return values.
-/

/- ### Entity model (NamedEntityRecognizer)

The shapes of the values returned by the external extractors, as consumed by
`data_processing.py`: a Google entity exposes `name`, `type`, `salience`,
`metadata` (a string map, possibly holding `wikipedia_url`) and `mentions`
(each with a `type_` kind); a spacy entity exposes `text` and `label_`. -/

/-- A mention of a Google entity (only its `type_` kind is consumed). -/
structure Mention where
  type_ : String
deriving DecidableEq

/-- A Google entity as consumed by `google_doc_to_entity_list` and
`doc_to_multiple_entity_lists`. -/
structure GEntity where
  name : String
  type : String
  salience : ℚ
  metadata : List (String × String)
  mentions : List Mention
deriving DecidableEq

/-- A spacy entity as consumed by `spacy_doc_to_entity_list`: its surface
`text` and its NER `label_`. -/
structure SpacyEnt where
  text : String
  label_ : String
deriving DecidableEq

/-- Modelled from the spec: `GoogleNLP.PROPER_MENTION` (the module
`src/information/google_nlp.py` is not under `src/`); §4.6 calls it the
mention kind PROPER.  Only its equality with itself matters to the claims. -/
def PROPER_MENTION : String := "PROPER"

/-- Modelled from the spec: `GoogleNLP.ALLOWED_NER_TYPES` (the module
`src/information/google_nlp.py` is not under `src/`); §4.6 speaks of "an
allowed set of entity types".  The exact contents do not affect the claims. -/
def ALLOWED_NER_TYPES : List String := ["PERSON", "LOCATION", "ORGANIZATION", "EVENT", "WORK_OF_ART"]

/-- `allowed_spacy_ner_labels`, data_processing.py lines 23-31. -/
def allowed_spacy_ner_labels : List String :=
  ["PERSON", "ORG", "GPE", "EVENT", "WORK_OF_ART", "LAW", "PRODUCT"]

/-- The mention texts of the allowed-label spacy entities, in document order:
`entity_list` of `spacy_doc_to_entity_list`, lines 42-45. -/
def spacyEntityTexts (ents : List SpacyEnt) : List String :=
  (ents.filter (fun e => e.label_ ∈ allowed_spacy_ner_labels)).map SpacyEnt.text

/-- One step of the counting loop of lines 48-53: Python dicts preserve
insertion order, so a fresh key is appended at the end and an existing key is
bumped in place. -/
def bumpCount (counts : List (String × Nat)) (e : String) : List (String × Nat) :=
  if e ∈ counts.map Prod.fst then
    counts.map (fun p => if p.1 = e then (p.1, p.2 + 1) else p)
  else counts ++ [(e, 1)]

/-- Stable insertion (descending by `key`) used to model Python's
`sorted(..., key=..., reverse=True)`: `x` goes in front of the first element
whose key is `≤ key x`, so earlier elements win ties. -/
def insertDescBy {α β : Type} [LinearOrder β] (key : α → β) (x : α) : List α → List α
  | [] => [x]
  | y :: ys => if key y ≤ key x then x :: y :: ys else y :: insertDescBy key x ys

/-- Python's `sorted(l, key=key, reverse=True)`: a stable sort, descending by
`key`, elements with equal keys keeping their original relative order. -/
def sortDescBy {α β : Type} [LinearOrder β] (key : α → β) (l : List α) : List α :=
  l.foldr (insertDescBy key) []

/-- `spacy_doc_to_entity_list`, lines 36-55, as a function of the entity list
produced by the external spacy model on the document. -/
def spacy_doc_to_entity_list (ents : List SpacyEnt) : List String :=
  let entity_counts := (spacyEntityTexts ents).foldl bumpCount []
  (sortDescBy (fun p => p.2) entity_counts).map Prod.fst

/-- The index of the first occurrence of `a` in `l` (`l.length` when `a` is
absent): the "first-seen order in the document" of the spec. -/
def firstOccIdx (l : List String) (a : String) : Nat :=
  match l with
  | [] => 0
  | b :: t => if b = a then 0 else firstOccIdx t a + 1

/-- The distinct elements of `l` in first-seen order: the key order of the
insertion-ordered Python dict `entity_counts` (lines 48-53). -/
def firstSeen (l : List String) : List String :=
  l.foldl (fun acc x => if x ∈ acc then acc else acc ++ [x]) []

/-- The filter cascade of `google_doc_to_entity_list`, lines 73-101, in source
order: salience threshold, restricted type list, wikipedia-url-required,
proper-mention-required. -/
def applyEntityFilters (entities : List GEntity) (restricted_entities_list : Option (List String))
    (filter_wikipedia_only : Bool) (filter_proper_only : Bool) (salience_filter : ℚ) :
    List GEntity :=
  let entities := entities.filter (fun e => salience_filter ≤ e.salience)
  let entities := match restricted_entities_list with
    | some allowed => entities.filter (fun e => e.type ∈ allowed)
    | none => entities
  let entities := if filter_wikipedia_only then
      entities.filter (fun e => "wikipedia_url" ∈ e.metadata.map Prod.fst)
    else entities
  if filter_proper_only then
    entities.filter (fun e => e.mentions.any (fun m => m.type_ = PROPER_MENTION))
  else entities

/-- `google_doc_to_entity_list`, lines 57-109, as a function of the response
of `GoogleNLP.analyze_entities` on the document (`none` = service returned
`None`). -/
def google_doc_to_entity_list (response : Option (List GEntity))
    (restricted_entities_list : Option (List String) := none)
    (filter_wikipedia_only : Bool := false) (filter_proper_only : Bool := false)
    (salience_filter : ℚ := 0) (fallback_if_empty : Bool := false) :
    Option (List String) :=
  match response with
  | none => none
  | some entities =>
    let original_entity_names := entities.map GEntity.name
    let filtered := applyEntityFilters entities restricted_entities_list
      filter_wikipedia_only filter_proper_only salience_filter
    if fallback_if_empty ∧ filtered.length = 0 then some original_entity_names
    else some (filtered.map GEntity.name)

/-- `doc_to_entity_list`, lines 111-129, as a function of the primary
response and the spacy entities for the same document.  Modelled from the
spec for the collaborator: per §6 `analyze_entities` signals failure by
returning `None` and "must not raise past this boundary uncaught", so the
primary response is an `Option`, never an exception. -/
def doc_to_entity_list (response : Option (List GEntity)) (spacyEnts : List SpacyEnt) :
    List String :=
  match google_doc_to_entity_list response (some ALLOWED_NER_TYPES) true false 0 true with
  | some entity_list =>
    if 0 < entity_list.length then entity_list else spacy_doc_to_entity_list spacyEnts
  | none => spacy_doc_to_entity_list spacyEnts

/-- A value of the grouped-extraction dictionary: the "proper" group holds
names, the "wikipedia" group holds (name, url) pairs. -/
inductive GroupVal where
  | names : List String → GroupVal
  | pairs : List (String × String) → GroupVal
deriving DecidableEq

/-- The fallback branch of `doc_to_multiple_entity_lists`, lines 146-154:
every requested group gets the same spacy name list. -/
def fallbackResults (spacyEnts : List SpacyEnt) (entity_type_list : List String) :
    List (String × GroupVal) :=
  entity_type_list.map (fun t => (t, GroupVal.names (spacy_doc_to_entity_list spacyEnts)))

/-- `doc_to_multiple_entity_lists`, lines 131-176.  The primary call sits in
a `try`/`except RuntimeError` (lines 136-139), so its outcome is modelled as
`Except Unit (Option (List GEntity))`: `.error ()` is a raised
`RuntimeError`, `.ok none` is a `None` response.  The result dictionary is an
insertion-ordered association list (requested types assumed distinct, as dict
keys). -/
def doc_to_multiple_entity_lists (response : Except Unit (Option (List GEntity)))
    (spacyEnts : List SpacyEnt) (entity_type_list : List String) :
    List (String × GroupVal) :=
  let named_entities : Option (List GEntity) :=
    match response with
    | .error _ => none
    | .ok v => v
  match named_entities with
  | none => fallbackResults spacyEnts entity_type_list
  | some nes =>
    (if "proper" ∈ entity_type_list then
      [("proper", GroupVal.names
        ((nes.filter (fun e => e.mentions.any (fun m => m.type_ = PROPER_MENTION))).map
          GEntity.name))]
     else []) ++
    (if "wikipedia" ∈ entity_type_list then
      [("wikipedia", GroupVal.pairs
        ((nes.filter (fun e => "wikipedia_url" ∈ e.metadata.map Prod.fst)).map
          (fun e => (e.name, (e.metadata.lookup "wikipedia_url").getD ""))))]
     else [])

/- ### Topic model (SimilarityProcessor) -/

/-- A seed link `{url, title, snippet}` (spec §3). -/
structure Link where
  url : String
  title : String
  snippet : String
deriving DecidableEq

/-- A normalized topic record (spec §3): every key optional, `none` = key
absent from the Python dict. -/
structure Topic where
  title : Option String := none
  suggested_query : Option String := none
  image_url : Option String := none
  summary : Option String := none
  source : Option String := none
  provided_category : Option String := none
  topic_type_id : Option String := none
  doc : Option String := none
  seed_links : Option (List Link) := none
  related_topics : Option (List (String × String)) := none
  num_aggregate_streams : Option Nat := none
deriving DecidableEq

/-- The scalar-field merge pattern of `combine_topics`, lines 318-343:
`if combined.get(k) is None and topic.get(k) is not None: combined[k] = topic[k]`
— first non-null wins. -/
def firstSome {α : Type} (a b : Option α) : Option α :=
  match a with
  | none => b
  | some v => some v

/-- The `doc` merge of lines 344-350: first doc starts the field, later docs
are appended with a `"; "` separator. -/
def docStep (c t : Option String) : Option String :=
  match c, t with
  | none, some d => some d
  | some d, some e => some (d ++ "; " ++ e)
  | some d, none => some d
  | none, none => none

/-- The inner append of lines 358-360: a link is added only when its `url` is
not already present in the accumulated list. -/
def addLink (acc : List Link) (link : Link) : List Link :=
  if link.url ∈ acc.map Link.url then acc else acc ++ [link]

/-- The `for link in topic['seed_links']` loop of lines 358-360. -/
def addLinks (acc : List Link) (links : List Link) : List Link :=
  links.foldl addLink acc

/-- The seed-link merge of lines 352-360: the first present list is copied
verbatim (`.copy()`, line 355); later lists are merged link by link with the
url-freshness check. -/
def seedStep (c t : Option (List Link)) : Option (List Link) :=
  match c, t with
  | none, some links => some links
  | some acc, some links => some (addLinks acc links)
  | some acc, none => some acc
  | none, none => none

/-- The `related_topics` accumulation of lines 362-369: every titled topic
contributes `(title, source-or-empty)`. -/
def relStep (c : Option (List (String × String))) (title : Option String)
    (source : String) : Option (List (String × String)) :=
  match c, title with
  | none, some t => some [(t, source)]
  | some r, some t => some (r ++ [(t, source)])
  | r, none => r

/-- One iteration of the `for topic in topics` loop of `combine_topics`,
lines 318-369 (the duplicated `source` check of lines 331-336 is idempotent
and embedded once).  `num_aggregate_streams` is never merged by the loop. -/
def mergeStep (combined topic : Topic) : Topic :=
  { title := firstSome combined.title topic.title
    suggested_query := firstSome combined.suggested_query topic.suggested_query
    image_url := firstSome combined.image_url topic.image_url
    summary := firstSome combined.summary topic.summary
    source := firstSome combined.source topic.source
    provided_category := firstSome combined.provided_category topic.provided_category
    topic_type_id := firstSome combined.topic_type_id topic.topic_type_id
    doc := docStep combined.doc topic.doc
    seed_links := seedStep combined.seed_links topic.seed_links
    related_topics := relStep combined.related_topics topic.title (topic.source.getD "")
    num_aggregate_streams := combined.num_aggregate_streams }

/-- The field-merging loop of `combine_topics` (lines 317-369): fold the
cluster into the initially empty `combined_topic` dict. -/
def combineTopicsFields (topics : List Topic) : Topic :=
  topics.foldl mergeStep {}

/-- `combine_topics`, lines 310-384: the merged fields plus the
`count_reduced` value of lines 371-382 (`math.log(s, 2)` is `Real.logb 2 s`).
An empty cluster raises `IndexError` at `topics[0]` (line 371): `none`. -/
noncomputable def combine_topics (topics : List Topic) : Option (Topic × ℝ) :=
  match topics.head? with
  | none => none
  | some t0 =>
    let num_aggregate_streams := t0.num_aggregate_streams.getD 1
    let count_reduced : ℝ :=
      if num_aggregate_streams < 2 then (topics.length : ℝ) - 1
      else ((topics.length : ℝ) - 1) / Real.logb 2 num_aggregate_streams
    some (combineTopicsFields topics, count_reduced)

/-- Spec §4.5: "`seed_links` is the union of all constituent seed-links
lists, in cluster order, de-duplicated by `url` (first occurrence wins)" —
written from the spec's words, to be compared with the source's merge. -/
def dedupByUrl (links : List Link) : List Link :=
  links.foldl (fun acc l => if l.url ∈ acc.map Link.url then acc else acc ++ [l]) []

/- ### Greedy clusterer (combine_duplicate_topics)

The gensim corpus/tfidf/lsi/similarity machinery of lines 247-262 is the
external vectorization collaborator (spec §2, §6): its answers enter as an
argument `sims` mapping each topic index to the row of similarity scores the
index returns for that topic's query (one score per corpus document).  The
walk over the sorted scores and the availability bookkeeping, lines 264-308,
are embedded below. -/

/-- The `while sims_query[sims_index][1] >= 0.5` walk of lines 286-304.
Indexing past the end of `sims_query` (or of `available_list`) raises
`IndexError`: `none`.  The similarity threshold 0.5 is `mkRat 1 2`.
Clusters are recorded as lists of indices into `normalized_list`. -/
def walkSims : List (Nat × ℚ) → List Bool → List Nat → Option (List Nat × List Bool)
  | [], _, _ => none
  | (j, score) :: rest, avail, acc =>
    if mkRat 1 2 ≤ score then
      match avail[j]? with
      | none => none
      | some a =>
        if a then walkSims rest (avail.set j false) (acc ++ [j])
        else walkSims rest avail acc
    else some (acc, avail)

/-- The `for list_index, topic in enumerate(normalized_list)` loop of lines
271-306.  Line 291 is embedded as written in the source:
`available_list[list_index] = 1` (it sets the seed's availability to 1, not
0).  `sorted(enumerate(sims_query), key=lambda item: -item[1])` (lines
283-284) is the stable descending sort `sortDescBy`. -/
def combineLoop (sims : Nat → List ℚ) :
    List Nat → List Bool → List (List Nat) → Option (List (List Nat))
  | [], _, acc => some acc
  | i :: rest, avail, acc =>
    match avail[i]? with
    | none => none
    | some a =>
      if a then
        let sims_query := sortDescBy (fun p => p.2) (sims i).enum
        let avail1 := avail.set i true
        match walkSims sims_query avail1 [i] with
        | none => none
        | some (cluster, avail2) => combineLoop sims rest avail2 (acc ++ [cluster])
      else combineLoop sims rest avail acc

/-- The clusters formed by `combine_duplicate_topics`, lines 239-308, as
index lists: cluster `[i, j, k, ...]` is the `topics_to_combine` list
`[normalized_list[i], normalized_list[j], ...]` handed to `combine_topics`
(line 306). -/
def combineDuplicateClusters (normalized : List Topic) (sims : Nat → List ℚ) :
    Option (List (List Nat)) :=
  combineLoop sims (List.range normalized.length)
    (List.replicate normalized.length true) []

/-- `combine_duplicate_topics`, lines 239-308: each formed cluster is merged
by `combine_topics`. -/
noncomputable def combine_duplicate_topics (normalized : List Topic)
    (sims : Nat → List ℚ) : Option (List (Topic × ℝ)) := do
  let clusters ← combineDuplicateClusters normalized sims
  clusters.mapM (fun c => do
    let ts ← c.mapM (fun j => normalized[j]?)
    combine_topics ts)

/- ### Text normalization (preprocess_doc)

`preprocess_doc` (lines 234-236) lower-cases the document and runs gensim's
`preprocess_string` with the filter list of lines 221-227.  The gensim filter
functions (`strip_tags`, `strip_punctuation`, `strip_multiple_whitespaces`,
`strip_numeric`, `remove_stopwords`) are small regex/split combinators from
`gensim.parsing.preprocessing`, embedded below over `List Char`.  The
character classes model the ASCII ranges of the regexes
(`string.punctuation`, `\s`, `[0-9]`) and of `str.lower`. -/

/-- A character of Python's `string.punctuation` (ASCII 33-47, 58-64, 91-96,
123-126). -/
def punctChar (c : Char) : Bool :=
  decide ((33 ≤ c.toNat ∧ c.toNat ≤ 47) ∨ (58 ≤ c.toNat ∧ c.toNat ≤ 64) ∨
    (91 ≤ c.toNat ∧ c.toNat ≤ 96) ∨ (123 ≤ c.toNat ∧ c.toNat ≤ 126))

/-- A whitespace character (regex `\s`): space, TAB, LF, VT, FF, CR. -/
def wsChar (c : Char) : Bool :=
  decide (c.toNat = 32 ∨ (9 ≤ c.toNat ∧ c.toNat ≤ 13))

/-- A decimal digit (regex `[0-9]`). -/
def digitChar (c : Char) : Bool :=
  decide (48 ≤ c.toNat ∧ c.toNat ≤ 57)

/-- `str.lower`, per character (ASCII case mapping). -/
def lowerChar (c : Char) : Char :=
  if 65 ≤ c.toNat ∧ c.toNat ≤ 90 then Char.ofNat (c.toNat + 32) else c

/-- gensim `strip_tags`: delete every leftmost non-overlapping match of
`<([^>]+)>`. -/
def strip_tags : List Char → List Char
  | [] => []
  | c :: rest =>
    if c = '<' then
      match rest.takeWhile (fun d => d != '>'),
          hdrop : rest.dropWhile (fun d => d != '>') with
      | [], _ => c :: strip_tags rest
      | _ :: _, [] => c :: strip_tags rest
      | _ :: _, _ :: after => strip_tags after
    else c :: strip_tags rest
termination_by l => l.length
decreasing_by
  all_goals first
  | (simp only [List.length_cons]; omega)
  | (have h1 : (rest.dropWhile (fun d => d != '>')).length ≤ rest.length :=
       (List.dropWhile_sublist _).length_le
     rw [hdrop] at h1
     simp only [List.length_cons] at h1 ⊢
     omega)

/-- gensim `strip_punctuation`: replace each maximal punctuation run by one
space. -/
def strip_punctuation : List Char → List Char
  | [] => []
  | c :: rest =>
    if punctChar c then ' ' :: strip_punctuation (rest.dropWhile punctChar)
    else c :: strip_punctuation rest
termination_by l => l.length
decreasing_by
  all_goals first
  | (simp only [List.length_cons]; omega)
  | (have h1 : (rest.dropWhile punctChar).length ≤ rest.length :=
       (List.dropWhile_sublist _).length_le
     simp only [List.length_cons]
     omega)

/-- gensim `strip_multiple_whitespaces`: replace each maximal whitespace run
by one space. -/
def strip_multiple_whitespaces : List Char → List Char
  | [] => []
  | c :: rest =>
    if wsChar c then ' ' :: strip_multiple_whitespaces (rest.dropWhile wsChar)
    else c :: strip_multiple_whitespaces rest
termination_by l => l.length
decreasing_by
  all_goals first
  | (simp only [List.length_cons]; omega)
  | (have h1 : (rest.dropWhile wsChar).length ≤ rest.length :=
       (List.dropWhile_sublist _).length_le
     simp only [List.length_cons]
     omega)

/-- gensim `strip_numeric`: delete every digit run — character-wise deletion
of digits. -/
def strip_numeric (l : List Char) : List Char :=
  l.filter (fun c => !(digitChar c))

/-- Python `str.split()`: split on whitespace runs, dropping empties. -/
def splitWs : List Char → List (List Char)
  | [] => []
  | c :: rest =>
    if wsChar c then splitWs rest
    else (c :: rest.takeWhile (fun d => !(wsChar d))) ::
      splitWs (rest.dropWhile (fun d => !(wsChar d)))
termination_by l => l.length
decreasing_by
  all_goals first
  | (simp only [List.length_cons]; omega)
  | (have h1 : (rest.dropWhile (fun d => !(wsChar d))).length ≤ rest.length :=
       (List.dropWhile_sublist _).length_le
     simp only [List.length_cons]
     omega)

/-- Python `" ".join(tokens)`. -/
def joinSpace : List (List Char) → List Char
  | [] => []
  | [w] => w
  | w :: ws => w ++ ' ' :: joinSpace ws

/-- Modelled from gensim `parsing.preprocessing.STOPWORDS`: a fixed English
stopword set; the exact contents are irrelevant to the stated properties. -/
def STOPWORDS : List String :=
  ["a", "about", "above", "after", "again", "all", "also", "am", "an", "and",
   "any", "are", "as", "at", "be", "because", "been", "being", "below",
   "between", "both", "but", "by", "can", "could", "did", "do", "does",
   "doing", "down", "during", "each", "few", "for", "from", "had", "has",
   "have", "having", "he", "her", "here", "hers", "him", "his", "how", "i",
   "if", "in", "into", "is", "it", "its", "just", "me", "more", "most", "my",
   "no", "nor", "not", "now", "of", "off", "on", "once", "only", "or",
   "other", "our", "out", "over", "own", "same", "she", "so", "some", "such",
   "than", "that", "the", "their", "them", "then", "there", "these", "they",
   "this", "those", "through", "to", "too", "under", "until", "up", "very",
   "was", "we", "were", "what", "when", "where", "which", "while", "who",
   "whom", "why", "will", "with", "you", "your"]

/-- `w not in STOPWORDS`. -/
def isStopword (w : List Char) : Bool :=
  STOPWORDS.any (fun s => s.data == w)

/-- gensim `remove_stopwords`: keep the non-stopword words of `s.split()`,
rejoined with single spaces. -/
def remove_stopwords (l : List Char) : List Char :=
  joinSpace ((splitWs l).filter (fun w => !(isStopword w)))

/-- gensim `preprocess_string` with the filter list of lines 221-227: apply
the five string filters in order, then `str.split()`. -/
def preprocess_string (l : List Char) : List (List Char) :=
  splitWs (remove_stopwords (strip_numeric (strip_multiple_whitespaces
    (strip_punctuation (strip_tags l)))))

/-- `preprocess_doc`, lines 234-236: lower-case the document, then run
`preprocess_string`. -/
def preprocess_doc (l : List Char) : List (List Char) :=
  preprocess_string (l.map lowerChar)

/- ### Reference-semantics model of combine_topics (frame property)

In Python the seed-link and related-topic lists are mutable objects shared by
reference.  To state that `combine_topics` mutates no input topic, the two
list-valued fields are modelled as references into explicit heaps, and every
`.copy()`, `.append` and fresh list literal of lines 352-369 acts on those
heaps.  Scalar fields are immutable Python strings and the loop never assigns
into an input dict (only into `combined_topic`), so the list heaps are the
only places a mutation of an input could show up. -/

/-- The heap of seed-link lists; a reference is an index into `cells`. -/
structure LinkHeap where
  cells : List (List Link)
deriving DecidableEq

/-- The heap of related-topics lists. -/
structure RelHeap where
  cells : List (List (String × String))
deriving DecidableEq

/-- A topic under reference semantics: the list-valued fields hold heap
references. -/
structure HTopic where
  title : Option String := none
  source : Option String := none
  doc : Option String := none
  seed_links : Option Nat := none
  related_topics : Option Nat := none
  num_aggregate_streams : Option Nat := none
deriving DecidableEq

/-- Dereference a seed-link cell. -/
def readLinks (h : LinkHeap) (r : Nat) : List Link :=
  (h.cells[r]?).getD []

/-- Allocate a fresh seed-link cell (`topic['seed_links'].copy()`,
line 355). -/
def allocLinks (h : LinkHeap) (ls : List Link) : LinkHeap × Nat :=
  (⟨h.cells ++ [ls]⟩, h.cells.length)

/-- `combined_topic['seed_links'].append(link)` guarded by the url-freshness
check (lines 358-360), acting on cell `rc`. -/
def appendLinkAt (h : LinkHeap) (rc : Nat) (link : Link) : LinkHeap :=
  if link.url ∈ (readLinks h rc).map Link.url then h
  else ⟨h.cells.set rc (readLinks h rc ++ [link])⟩

/-- The `for link in topic['seed_links']` loop (lines 358-360) on the
heap. -/
def appendLinksAt (h : LinkHeap) (rc : Nat) (links : List Link) : LinkHeap :=
  links.foldl (fun h link => appendLinkAt h rc link) h

/-- The seed-link merge of lines 352-360 under reference semantics. -/
def seedStepH (h : LinkHeap) (c t : Option Nat) : LinkHeap × Option Nat :=
  match c, t with
  | none, some rt =>
    ((allocLinks h (readLinks h rt)).1, some (allocLinks h (readLinks h rt)).2)
  | some rc, some rt => (appendLinksAt h rc (readLinks h rt), some rc)
  | some rc, none => (h, some rc)
  | none, none => (h, none)

/-- Dereference a related-topics cell. -/
def readRels (h : RelHeap) (r : Nat) : List (String × String) :=
  (h.cells[r]?).getD []

/-- Allocate a fresh related-topics cell (the list literal of line 365). -/
def allocRels (h : RelHeap) (rs : List (String × String)) : RelHeap × Nat :=
  (⟨h.cells ++ [rs]⟩, h.cells.length)

/-- `combined_topic['related_topics'].append(...)` (line 368) on cell
`rr`. -/
def appendRelAt (h : RelHeap) (rr : Nat) (x : String × String) : RelHeap :=
  ⟨h.cells.set rr (readRels h rr ++ [x])⟩

/-- The related-topics accumulation of lines 362-369 under reference
semantics. -/
def relStepH (h : RelHeap) (c : Option Nat) (title : Option String)
    (source : String) : RelHeap × Option Nat :=
  match c, title with
  | none, some t =>
    ((allocRels h [(t, source)]).1, some (allocRels h [(t, source)]).2)
  | some rr, some t => (appendRelAt h rr (t, source), some rr)
  | r, none => (h, r)

/-- One iteration of the `combine_topics` loop under reference semantics
(state = link heap, related heap, `combined_topic`). -/
def hMergeStep (st : LinkHeap × RelHeap × HTopic) (t : HTopic) :
    LinkHeap × RelHeap × HTopic :=
  ((seedStepH st.1 st.2.2.seed_links t.seed_links).1,
   (relStepH st.2.1 st.2.2.related_topics t.title (t.source.getD "")).1,
   { title := firstSome st.2.2.title t.title
     source := firstSome st.2.2.source t.source
     doc := docStep st.2.2.doc t.doc
     seed_links := (seedStepH st.1 st.2.2.seed_links t.seed_links).2
     related_topics := (relStepH st.2.1 st.2.2.related_topics t.title
       (t.source.getD "")).2
     num_aggregate_streams := st.2.2.num_aggregate_streams })

/-- The field-merging loop of `combine_topics` (lines 317-369) under
reference semantics. -/
def combineTopicsH (lh : LinkHeap) (rh : RelHeap) (topics : List HTopic) :
    LinkHeap × RelHeap × HTopic :=
  topics.foldl hMergeStep (lh, rh, {})

/-- The frame invariant: the original heap cells are untouched, the heaps
only grew, and the combined topic's references (when present) point past the
original heaps. -/
def HFrameInv (lh : LinkHeap) (rh : RelHeap)
    (st : LinkHeap × RelHeap × HTopic) : Prop :=
  (∀ i, i < lh.cells.length → st.1.cells[i]? = lh.cells[i]?) ∧
  lh.cells.length ≤ st.1.cells.length ∧
  (∀ i, i < rh.cells.length → st.2.1.cells[i]? = rh.cells[i]?) ∧
  rh.cells.length ≤ st.2.1.cells.length ∧
  (∀ rc, st.2.2.seed_links = some rc → lh.cells.length ≤ rc) ∧
  (∀ rr, st.2.2.related_topics = some rr → rh.cells.length ≤ rr)

/-- Claim C4: with `fallback_if_empty` set, if the primary extractor returns
a non-empty entity list but the enabled filters reduce it to the empty list,
`google_doc_to_entity_list` returns the original unfiltered entity names,
which are non-empty, rather than the empty list. -/
theorem google_doc_fallback_if_empty (es : List GEntity)
    (restricted : Option (List String)) (wiki proper : Bool) (sal : ℚ)
    (hne : es ≠ [])
    (hempty : applyEntityFilters es restricted wiki proper sal = []) :
    google_doc_to_entity_list (some es) restricted wiki proper sal true =
      some (es.map GEntity.name) ∧ es.map GEntity.name ≠ [] := by
  constructor
  · simp [google_doc_to_entity_list, hempty]
  · simpa using hne

/-- Witness for C4: the spec's scenario — a single entity
`{name := "Acme", salience := 0.9, type := "ORG", metadata := {}}` under
`filter_wikipedia_only` yields `["Acme"]`. -/
theorem google_doc_fallback_if_empty_witness :
    google_doc_to_entity_list
        (some [⟨"Acme", "ORG", mkRat 9 10, [], []⟩]) none true false (mkRat 0 1) true =
      some ["Acme"] ∧ ([⟨"Acme", "ORG", mkRat 9 10, [], []⟩] : List GEntity).map GEntity.name ≠ [] := by
  have h := google_doc_fallback_if_empty [⟨"Acme", "ORG", mkRat 9 10, [], []⟩]
    none true false (mkRat 0 1) (by decide) (by decide)
  exact ⟨h.1, h.2⟩

/-- Claim C5 (amended): the single-list path `doc_to_entity_list` produces
its result from the local fallback extractor whenever the primary extractor
returns `None` or an empty entity list; the grouped path
`doc_to_multiple_entity_lists` does so only when the primary returns `None` —
on an empty entity list it emits empty groups without invoking the
fallback. -/
theorem entity_fallback_triggers (response : Option (List GEntity))
    (spacyEnts : List SpacyEnt) (entity_type_list : List String)
    (h : response = none ∨ response = some []) :
    doc_to_entity_list response spacyEnts = spacy_doc_to_entity_list spacyEnts ∧
    doc_to_multiple_entity_lists (.ok none) spacyEnts entity_type_list =
      fallbackResults spacyEnts entity_type_list ∧
    doc_to_multiple_entity_lists (.ok (some [])) spacyEnts entity_type_list =
      (if "proper" ∈ entity_type_list then [("proper", GroupVal.names [])] else []) ++
      (if "wikipedia" ∈ entity_type_list then [("wikipedia", GroupVal.pairs [])] else []) := by
  refine ⟨?_, ?_, ?_⟩
  · rcases h with h | h <;> subst h <;>
      simp [doc_to_entity_list, google_doc_to_entity_list, applyEntityFilters]
  · simp [doc_to_multiple_entity_lists]
  · simp [doc_to_multiple_entity_lists]

/-- Witness for C5: a concrete empty-primary document with one spacy PERSON
entity; the single-list path returns the spacy list, the grouped-`None` path
returns the fallback dictionary. -/
theorem entity_fallback_triggers_witness :
    doc_to_entity_list (some []) [⟨"Alice", "PERSON"⟩] =
      spacy_doc_to_entity_list [⟨"Alice", "PERSON"⟩] ∧
    doc_to_multiple_entity_lists (.ok none) [⟨"Alice", "PERSON"⟩] ["proper"] =
      fallbackResults [⟨"Alice", "PERSON"⟩] ["proper"] ∧
    doc_to_multiple_entity_lists (.ok (some [])) [⟨"Alice", "PERSON"⟩] ["proper"] =
      (if "proper" ∈ ["proper"] then [("proper", GroupVal.names [])] else []) ++
      (if "wikipedia" ∈ ["proper"] then [("wikipedia", GroupVal.pairs [])] else []) :=
  entity_fallback_triggers (some []) [⟨"Alice", "PERSON"⟩] ["proper"] (Or.inr rfl)

/-- Counterexample for C5 as stated: the primary extractor returns an empty
entity list, yet the grouped path emits an empty "proper" group instead of
the (non-empty) local fallback list. -/
theorem grouped_empty_list_no_fallback :
    doc_to_multiple_entity_lists (.ok (some [])) [⟨"Alice", "PERSON"⟩] ["proper"] =
      [("proper", GroupVal.names [])] ∧
    spacy_doc_to_entity_list [⟨"Alice", "PERSON"⟩] = ["Alice"] ∧
    doc_to_multiple_entity_lists (.ok (some [])) [⟨"Alice", "PERSON"⟩] ["proper"] ≠
      fallbackResults [⟨"Alice", "PERSON"⟩] ["proper"] := by
  refine ⟨by decide, by decide, by decide⟩

/-- Claim C6: when the primary entity-extraction call fails — it returns
`None`, or (on the grouped path, which wraps it in `try`/`except
RuntimeError`) it throws — both entry points recover via the local extractor
and return normally; no failure escapes to the caller.  On the single-list
path the collaborator contract of spec §6 (modelled in
`doc_to_entity_list`) turns a service failure into a `None` response. -/
theorem primary_failure_recovered (spacyEnts : List SpacyEnt)
    (entity_type_list : List String) (response : Except Unit (Option (List GEntity)))
    (h : response = .error () ∨ response = .ok none) :
    doc_to_entity_list none spacyEnts = spacy_doc_to_entity_list spacyEnts ∧
    doc_to_multiple_entity_lists response spacyEnts entity_type_list =
      fallbackResults spacyEnts entity_type_list := by
  constructor
  · simp [doc_to_entity_list, google_doc_to_entity_list]
  · rcases h with h | h <;> subst h <;> simp [doc_to_multiple_entity_lists]

/-- Witness for C6: a thrown `RuntimeError` on the grouped path is absorbed
and both entry points fall back to the spacy result. -/
theorem primary_failure_recovered_witness :
    doc_to_entity_list none [⟨"Alice", "PERSON"⟩] =
      spacy_doc_to_entity_list [⟨"Alice", "PERSON"⟩] ∧
    doc_to_multiple_entity_lists (.error ()) [⟨"Alice", "PERSON"⟩] ["proper", "wikipedia"] =
      fallbackResults [⟨"Alice", "PERSON"⟩] ["proper", "wikipedia"] :=
  primary_failure_recovered [⟨"Alice", "PERSON"⟩] ["proper", "wikipedia"] (.error ())
    (Or.inl rfl)

/-- Claim C1: the clusters formed by `combine_duplicate_topics` do NOT
partition the input batch.  Line 291 sets `available_list[list_index] = 1`
(contradicting its own comment "remove from available" and the 1 = available
legend of lines 264-266), so a seed whose self-similarity reaches the 0.5
threshold is appended a second time to its own cluster: with two unrelated
topics whose self-similarity is 1.0, the clusters are `[[0,0],[1,1]]` — topic
0 appears twice in one cluster and the sizes sum to 4, not 2. -/
theorem combine_duplicate_topics_not_partition :
    combineDuplicateClusters [{}, {}]
        (fun i => if i = 0 then [mkRat 1 1, mkRat 0 1] else [mkRat 0 1, mkRat 1 1]) =
      some [[0, 0], [1, 1]] ∧
    (([[0, 0], [1, 1]] : List (List Nat)).map List.length).sum ≠
      ([{}, {}] : List Topic).length ∧
    ¬ ([0, 0] : List Nat).Nodup := by
  refine ⟨by decide, by decide, by decide⟩

/-- Claim C2: the walk over the sorted similarity results does NOT terminate
without error when every result scores at or above 0.5: the `while` loop of
lines 299-304 checks no bound, so a single-topic batch whose only result is
the self-similarity 1.0 indexes `sims_query[1]` past the end of the result
list and raises `IndexError` (modelled as `none`). -/
theorem combine_duplicate_topics_walk_overruns :
    combineDuplicateClusters [{}] (fun _ => [mkRat 1 1]) = none := by
  decide

/-- `addLinks` over an append is sequential composition of the folds. -/
theorem addLinks_append (acc : List Link) (xs ys : List Link) :
    addLinks acc (xs ++ ys) = addLinks (addLinks acc xs) ys :=
  List.foldl_append ..

/-- If every link of `l` has a url fresh for `acc` and `l` itself has no
duplicate urls, `addLinks` appends `l` verbatim. -/
theorem addLinks_of_fresh (l : List Link) (acc : List Link)
    (hfresh : ∀ x ∈ l, x.url ∉ acc.map Link.url)
    (hl : (l.map Link.url).Nodup) :
    addLinks acc l = acc ++ l := by
  induction l generalizing acc with
  | nil => simp [addLinks]
  | cons x xs ih =>
    have hx : x.url ∉ acc.map Link.url := hfresh x (by simp)
    have hxs : (xs.map Link.url).Nodup := (List.nodup_cons.mp (by simpa using hl)).2
    have hxfresh : x.url ∉ xs.map Link.url := (List.nodup_cons.mp (by simpa using hl)).1
    have step : addLink acc x = acc ++ [x] := by rw [addLink, if_neg hx]
    calc addLinks acc (x :: xs) = addLinks (acc ++ [x]) xs := by
          simp only [addLinks, List.foldl_cons, step]
      _ = (acc ++ [x]) ++ xs := by
          refine ih (acc ++ [x]) ?_ hxs
          intro y hy
          simp only [List.map_append, List.map_cons, List.map_nil, List.mem_append,
            List.mem_singleton]
          rintro (h | h)
          · exact hfresh y (List.mem_cons_of_mem _ hy) h
          · exact hxfresh (h ▸ List.mem_map_of_mem Link.url hy)
      _ = acc ++ (x :: xs) := by simp

/-- `addLink` preserves url-nodupness of the accumulator. -/
theorem addLink_nodup (acc : List Link) (x : Link)
    (h : (acc.map Link.url).Nodup) : ((addLink acc x).map Link.url).Nodup := by
  rw [addLink]
  split
  · exact h
  · next hmem =>
    have hd : ∀ y ∈ acc, ¬ y.url = x.url := by
      intro y hy hey
      exact hmem (hey ▸ List.mem_map_of_mem Link.url hy)
    simpa [List.nodup_append] using ⟨h, hd⟩

/-- `addLinks` preserves url-nodupness of the accumulator. -/
theorem addLinks_nodup (l : List Link) (acc : List Link)
    (h : (acc.map Link.url).Nodup) : ((addLinks acc l).map Link.url).Nodup := by
  induction l generalizing acc with
  | nil => exact h
  | cons x xs ih => exact ih (addLink acc x) (addLink_nodup acc x h)

/-- Once the seed-link accumulator exists, the remaining fold is `addLinks`
over the concatenation of the remaining (present) lists. -/
theorem foldl_seedStep_some (ls : List (Option (List Link))) (acc : List Link) :
    ls.foldl seedStep (some acc) =
      some (addLinks acc ((ls.map (fun o => o.getD [])).flatten)) := by
  induction ls generalizing acc with
  | nil => simp [addLinks]
  | cons o rest ih =>
    cases o with
    | none => simpa [seedStep] using ih acc
    | some l =>
      simp only [List.foldl_cons, seedStep, List.map_cons, List.flatten_cons,
        Option.getD_some]
      rw [ih (addLinks acc l), addLinks_append]

/-- `(mergeStep c t).seed_links` depends only on the seed-links components. -/
theorem mergeStep_seed_links (c t : Topic) :
    (mergeStep c t).seed_links = seedStep c.seed_links t.seed_links := rfl

/-- The seed-links component of the merge fold is the fold of `seedStep`. -/
theorem combineTopicsFields_seed_links (topics : List Topic) :
    (combineTopicsFields topics).seed_links =
      (topics.map Topic.seed_links).foldl seedStep none := by
  rw [combineTopicsFields, List.foldl_map]
  have h : ∀ (c : Topic), (topics.foldl mergeStep c).seed_links =
      topics.foldl (fun s t => seedStep s t.seed_links) c.seed_links := by
    induction topics with
    | nil => intro c; rfl
    | cons t ts ih =>
      intro c
      simpa [List.foldl_cons, mergeStep_seed_links] using ih (mergeStep c t)
  exact h {}

/-- Claim C7 (amended): provided the first constituent seed-links list has no
duplicate urls within itself (the source copies it verbatim, line 355), the
merged `seed_links` equals the concatenation of the constituent lists in
cluster order de-duplicated by url with the first occurrence kept, and hence
contains no two entries with the same url. -/
theorem combine_topics_seed_links_dedup (topics : List Topic)
    (h : ∀ l, (topics.filterMap Topic.seed_links).head? = some l →
      (l.map Link.url).Nodup) :
    (combineTopicsFields topics).seed_links.getD [] =
      dedupByUrl ((topics.map (fun t => t.seed_links.getD [])).flatten) ∧
    (((combineTopicsFields topics).seed_links.getD []).map Link.url).Nodup := by
  have hdedup : ∀ links : List Link, dedupByUrl links = addLinks [] links := by
    intro links; rfl
  have hflat : (topics.map (fun t => t.seed_links.getD [])).flatten =
      ((topics.map Topic.seed_links).map (fun o => o.getD [])).flatten := by
    rw [List.map_map]; rfl
  have key : ∀ (ls : List (Option (List Link))),
      (∀ l, (ls.filterMap id).head? = some l → (l.map Link.url).Nodup) →
      (ls.foldl seedStep none).getD [] =
        dedupByUrl ((ls.map (fun o => o.getD [])).flatten) ∧
      (((ls.foldl seedStep none).getD []).map Link.url).Nodup := by
    intro ls
    induction ls with
    | nil => intro _; exact ⟨rfl, List.nodup_nil⟩
    | cons o rest ih =>
      intro hnd
      cases o with
      | none =>
        have := ih (by simpa using hnd)
        simpa [seedStep] using this
      | some l =>
        have hl : (l.map Link.url).Nodup := hnd l (by simp)
        have hstep : (some l :: rest).foldl seedStep none =
            rest.foldl seedStep (some l) := by simp [seedStep]
        rw [hstep, foldl_seedStep_some]
        constructor
        · rw [hdedup]
          simp only [List.map_cons, List.flatten_cons, Option.getD_some]
          rw [addLinks_append, addLinks_of_fresh l [] (by simp) hl]
          simp
        · simpa using addLinks_nodup _ l (by simpa using hl)
  have hfm : (topics.map Topic.seed_links).filterMap id =
      topics.filterMap Topic.seed_links := by
    rw [List.filterMap_map]; rfl
  have := key (topics.map Topic.seed_links) (by rw [hfm]; exact h)
  rw [combineTopicsFields_seed_links, hflat]
  exact this

/-- Witness for C7: two topics, the second contributing one fresh link and
one url-duplicate of the first topic's link; the merged list keeps the first
occurrence of each url, in first-seen order. -/
theorem combine_topics_seed_links_dedup_witness :
    (combineTopicsFields
        [{ seed_links := some [⟨"u1", "a", "b"⟩] },
         { seed_links := some [⟨"u2", "c", "d"⟩, ⟨"u1", "e", "f"⟩] }]).seed_links.getD [] =
      dedupByUrl ((([{ seed_links := some [⟨"u1", "a", "b"⟩] },
         { seed_links := some [⟨"u2", "c", "d"⟩, ⟨"u1", "e", "f"⟩] }] : List Topic).map
           (fun t => t.seed_links.getD [])).flatten) ∧
    ((((combineTopicsFields
        [{ seed_links := some [⟨"u1", "a", "b"⟩] },
         { seed_links := some [⟨"u2", "c", "d"⟩, ⟨"u1", "e", "f"⟩] }]).seed_links.getD
          []).map Link.url).Nodup) :=
  combine_topics_seed_links_dedup
    [{ seed_links := some [⟨"u1", "a", "b"⟩] },
     { seed_links := some [⟨"u2", "c", "d"⟩, ⟨"u1", "e", "f"⟩] }]
    (by
      intro l hl
      have h2 : (([{ seed_links := some [⟨"u1", "a", "b"⟩] },
          { seed_links := some [⟨"u2", "c", "d"⟩, ⟨"u1", "e", "f"⟩] }] : List Topic).filterMap
            Topic.seed_links).head? = some [⟨"u1", "a", "b"⟩] := by decide
      rw [h2, Option.some_inj] at hl
      subst hl
      decide)

/-- Counterexample for C7 as stated: a single topic whose own seed-links list
repeats a url is copied verbatim (line 355), so the merged list is neither
url-deduplicated nor equal to the dedup of the concatenation. -/
theorem combine_topics_seed_links_dup_cex :
    ¬ ((((combineTopicsFields
        [{ seed_links := some [⟨"u", "a", "b"⟩, ⟨"u", "c", "d"⟩] }]).seed_links.getD
          []).map Link.url).Nodup) ∧
    (combineTopicsFields
        [{ seed_links := some [⟨"u", "a", "b"⟩, ⟨"u", "c", "d"⟩] }]).seed_links.getD [] ≠
      dedupByUrl ((([{ seed_links := some [⟨"u", "a", "b"⟩, ⟨"u", "c", "d"⟩] }] :
        List Topic).map (fun t => t.seed_links.getD [])).flatten) := by
  refine ⟨by decide, by decide⟩

/-- Claim C3: for a non-empty cluster of `k` topics whose first topic has
`num_aggregate_streams = s` (default 1 when absent), `count_reduced` is
`k - 1` when `s < 2` and `(k - 1) / log2 s` when `s ≥ 2`; it is always
non-negative, zero for a singleton cluster with `s < 2`, and `1.0` for a
cluster of size 3 with `s = 4`. -/
theorem combine_topics_count_reduced_spec (topics : List Topic) (t0 : Topic)
    (p : Topic × ℝ) (h0 : topics.head? = some t0)
    (hc : combine_topics topics = some p) :
    p.2 = (if t0.num_aggregate_streams.getD 1 < 2 then (topics.length : ℝ) - 1
           else ((topics.length : ℝ) - 1) /
             Real.logb 2 (t0.num_aggregate_streams.getD 1)) ∧
    0 ≤ p.2 ∧
    (topics.length = 1 ∧ t0.num_aggregate_streams.getD 1 < 2 → p.2 = 0) ∧
    (topics.length = 3 ∧ t0.num_aggregate_streams.getD 1 = 4 → p.2 = 1) := by
  rw [combine_topics, h0] at hc
  simp only [Option.some_inj] at hc
  subst hc
  have hlen : 1 ≤ topics.length := by
    cases topics with
    | nil => simp at h0
    | cons a l => simp
  have hlenR : (1 : ℝ) ≤ (topics.length : ℝ) := by exact_mod_cast hlen
  refine ⟨rfl, ?_, ?_, ?_⟩
  · dsimp only
    split
    · linarith
    · next hs =>
      have hs2 : 2 ≤ t0.num_aggregate_streams.getD 1 := Nat.le_of_not_lt hs
      have hs2R : (1 : ℝ) < (t0.num_aggregate_streams.getD 1 : ℝ) := by
        exact_mod_cast Nat.lt_of_lt_of_le Nat.one_lt_two hs2
      have hlog : 0 < Real.logb 2 (t0.num_aggregate_streams.getD 1) :=
        Real.logb_pos (by norm_num) hs2R
      exact div_nonneg (by linarith) (le_of_lt hlog)
  · rintro ⟨hk, hs⟩
    dsimp only
    rw [if_pos hs, hk]
    norm_num
  · rintro ⟨hk, hs⟩
    dsimp only
    rw [if_neg (by rw [hs]; norm_num), hk, hs]
    have h4 : ((4 : ℕ) : ℝ) = (2 : ℝ) ^ (2 : ℕ) := by norm_num
    rw [h4, Real.logb_pow, Real.logb_self_eq_one (by norm_num)]
    norm_num

/-- Witness for C3: the singleton cluster of the empty topic (so `k = 1`,
`s` defaults to 1): `count_reduced = 0`. -/
theorem combine_topics_count_reduced_spec_witness :
    (combineTopicsFields [({} : Topic)], (0 : ℝ)).2 =
      (if ({} : Topic).num_aggregate_streams.getD 1 < 2
       then (([({} : Topic)] : List Topic).length : ℝ) - 1
       else ((([({} : Topic)] : List Topic).length : ℝ) - 1) /
         Real.logb 2 (({} : Topic).num_aggregate_streams.getD 1)) ∧
    0 ≤ (combineTopicsFields [({} : Topic)], (0 : ℝ)).2 ∧
    (([({} : Topic)] : List Topic).length = 1 ∧
        ({} : Topic).num_aggregate_streams.getD 1 < 2 →
      (combineTopicsFields [({} : Topic)], (0 : ℝ)).2 = 0) ∧
    (([({} : Topic)] : List Topic).length = 3 ∧
        ({} : Topic).num_aggregate_streams.getD 1 = 4 →
      (combineTopicsFields [({} : Topic)], (0 : ℝ)).2 = 1) :=
  combine_topics_count_reduced_spec [{}] {} (combineTopicsFields [{}], 0) rfl
    (by simp [combine_topics])

/-- A guarded append at cell `rc` leaves every other cell unchanged. -/
theorem appendLinkAt_get (h : LinkHeap) (rc : Nat) (link : Link) (i : Nat)
    (hne : i ≠ rc) : (appendLinkAt h rc link).cells[i]? = h.cells[i]? := by
  rw [appendLinkAt]
  split
  · rfl
  · show (h.cells.set rc (readLinks h rc ++ [link]))[i]? = h.cells[i]?
    exact List.getElem?_set_ne (Ne.symm hne)

/-- A guarded append preserves the heap size. -/
theorem appendLinkAt_length (h : LinkHeap) (rc : Nat) (link : Link) :
    (appendLinkAt h rc link).cells.length = h.cells.length := by
  rw [appendLinkAt]
  split
  · rfl
  · simp

/-- The whole link loop leaves every cell other than `rc` unchanged and
preserves the heap size. -/
theorem appendLinksAt_frame (links : List Link) (h : LinkHeap) (rc : Nat) :
    (∀ i, i ≠ rc → (appendLinksAt h rc links).cells[i]? = h.cells[i]?) ∧
    (appendLinksAt h rc links).cells.length = h.cells.length := by
  induction links generalizing h with
  | nil => exact ⟨fun _ _ => rfl, rfl⟩
  | cons x xs ih =>
    have hstep := ih (appendLinkAt h rc x)
    refine ⟨fun i hi => ?_, ?_⟩
    · rw [show appendLinksAt h rc (x :: xs) = appendLinksAt (appendLinkAt h rc x) rc xs
        from rfl, hstep.1 i hi, appendLinkAt_get h rc x i hi]
    · rw [show appendLinksAt h rc (x :: xs) = appendLinksAt (appendLinkAt h rc x) rc xs
        from rfl, hstep.2, appendLinkAt_length]

/-- One merge iteration preserves the frame invariant. -/
theorem hMergeStep_frame (lh : LinkHeap) (rh : RelHeap)
    (st : LinkHeap × RelHeap × HTopic) (t : HTopic)
    (h : HFrameInv lh rh st) : HFrameInv lh rh (hMergeStep st t) := by
  obtain ⟨h1, h2, h3, h4, h5, h6⟩ := h
  have hseed : (∀ i, i < lh.cells.length →
        (seedStepH st.1 st.2.2.seed_links t.seed_links).1.cells[i]? = st.1.cells[i]?) ∧
      st.1.cells.length ≤ (seedStepH st.1 st.2.2.seed_links t.seed_links).1.cells.length ∧
      (∀ rc, (seedStepH st.1 st.2.2.seed_links t.seed_links).2 = some rc →
        lh.cells.length ≤ rc) := by
    cases hc : st.2.2.seed_links with
    | none =>
      cases t.seed_links with
      | none => exact ⟨fun _ _ => rfl, le_refl _, by simp [seedStepH]⟩
      | some rt =>
        refine ⟨fun i hi => ?_, ?_, ?_⟩
        · simp only [seedStepH, allocLinks]
          exact List.getElem?_append_left (Nat.lt_of_lt_of_le hi h2)
        · simp only [seedStepH, allocLinks, List.length_append, List.length_cons,
            List.length_nil]
          omega
        · intro rc hrc
          simp only [seedStepH, allocLinks, Option.some_inj] at hrc
          exact hrc ▸ h2
    | some rc0 =>
      have hge : lh.cells.length ≤ rc0 := h5 rc0 hc
      cases t.seed_links with
      | none => exact ⟨fun _ _ => rfl, le_refl _, by
          simp only [seedStepH, Option.some_inj]
          rintro rc rfl
          exact hge⟩
      | some rt =>
        refine ⟨fun i hi => ?_, ?_, ?_⟩
        · exact (appendLinksAt_frame _ st.1 rc0).1 i
            (Nat.ne_of_lt (Nat.lt_of_lt_of_le hi hge))
        · simpa [seedStepH] using le_of_eq ((appendLinksAt_frame _ st.1 rc0).2).symm
        · simp only [seedStepH, Option.some_inj]
          rintro rc rfl
          exact hge
  have hrel : (∀ i, i < rh.cells.length →
        (relStepH st.2.1 st.2.2.related_topics t.title (t.source.getD "")).1.cells[i]? =
          st.2.1.cells[i]?) ∧
      st.2.1.cells.length ≤
        (relStepH st.2.1 st.2.2.related_topics t.title (t.source.getD "")).1.cells.length ∧
      (∀ rr, (relStepH st.2.1 st.2.2.related_topics t.title (t.source.getD "")).2 =
          some rr → rh.cells.length ≤ rr) := by
    cases hc : st.2.2.related_topics with
    | none =>
      cases t.title with
      | none => exact ⟨fun _ _ => rfl, le_refl _, by simp [relStepH]⟩
      | some ti =>
        refine ⟨fun i hi => ?_, ?_, ?_⟩
        · simp only [relStepH, allocRels]
          exact List.getElem?_append_left (Nat.lt_of_lt_of_le hi h4)
        · simp only [relStepH, allocRels, List.length_append, List.length_cons,
            List.length_nil]
          omega
        · intro rr hrr
          simp only [relStepH, allocRels, Option.some_inj] at hrr
          exact hrr ▸ h4
    | some rr0 =>
      have hge : rh.cells.length ≤ rr0 := h6 rr0 hc
      cases t.title with
      | none => exact ⟨fun _ _ => rfl, le_refl _, by
          simp only [relStepH, Option.some_inj]
          rintro rr rfl
          exact hge⟩
      | some ti =>
        refine ⟨fun i hi => ?_, ?_, ?_⟩
        · simp only [relStepH, appendRelAt]
          exact List.getElem?_set_ne (Ne.symm (Nat.ne_of_lt (Nat.lt_of_lt_of_le hi hge)))
        · simp [relStepH, appendRelAt]
        · simp only [relStepH, Option.some_inj]
          rintro rr rfl
          exact hge
  refine ⟨fun i hi => ?_, ?_, fun i hi => ?_, ?_, ?_, ?_⟩
  · rw [show (hMergeStep st t).1 = (seedStepH st.1 st.2.2.seed_links t.seed_links).1
      from rfl, hseed.1 i hi, h1 i hi]
  · exact le_trans h2 hseed.2.1
  · rw [show (hMergeStep st t).2.1 =
      (relStepH st.2.1 st.2.2.related_topics t.title (t.source.getD "")).1 from rfl,
      hrel.1 i hi, h3 i hi]
  · exact le_trans h4 hrel.2.1
  · exact hseed.2.2
  · exact hrel.2.2

/-- The frame invariant is preserved along the whole merge loop. -/
theorem foldl_hMergeStep_frame (lh : LinkHeap) (rh : RelHeap)
    (topics : List HTopic) (st : LinkHeap × RelHeap × HTopic)
    (h : HFrameInv lh rh st) : HFrameInv lh rh (topics.foldl hMergeStep st) := by
  induction topics generalizing st with
  | nil => exact h
  | cons t ts ih => exact ih _ (hMergeStep_frame lh rh st t h)

/-- Claim C10: `combine_topics` never mutates an input topic.  Under the
reference-semantics model, every heap cell that existed before the merge
(the seed-links and related-topics lists of all input topics) holds exactly
its original contents afterwards, and the returned topic is newly
constructed: its list-valued fields, when present, refer to cells allocated
during the merge, past the original heaps. -/
theorem combine_topics_no_input_mutation (lh : LinkHeap) (rh : RelHeap)
    (topics : List HTopic) :
    (∀ i, i < lh.cells.length →
      (combineTopicsH lh rh topics).1.cells[i]? = lh.cells[i]?) ∧
    (∀ i, i < rh.cells.length →
      (combineTopicsH lh rh topics).2.1.cells[i]? = rh.cells[i]?) ∧
    (∀ rc, (combineTopicsH lh rh topics).2.2.seed_links = some rc →
      lh.cells.length ≤ rc) ∧
    (∀ rr, (combineTopicsH lh rh topics).2.2.related_topics = some rr →
      rh.cells.length ≤ rr) := by
  have h0 : HFrameInv lh rh (lh, rh, {}) := by
    refine ⟨fun _ _ => rfl, le_refl _, fun _ _ => rfl, le_refl _, ?_, ?_⟩
    · intro rc hrc; cases hrc
    · intro rr hrr; cases hrr
  have h := foldl_hMergeStep_frame lh rh topics (lh, rh, {}) h0
  exact ⟨h.1, h.2.2.1, h.2.2.2.2.1, h.2.2.2.2.2⟩

/-- Witness for C10: one input topic holding a seed-links reference into a
one-cell heap; after the merge the original cell is untouched and the
output's seed-links reference (cell 1) lies past the original heap. -/
theorem combine_topics_no_input_mutation_witness :
    (combineTopicsH ⟨[[⟨"u", "t", "s"⟩]]⟩ ⟨[]⟩
        [{ seed_links := some 0, title := some "T" }]).1.cells[0]? =
      (⟨[[⟨"u", "t", "s"⟩]]⟩ : LinkHeap).cells[0]? ∧
    (⟨[[⟨"u", "t", "s"⟩]]⟩ : LinkHeap).cells.length ≤ 1 :=
  ⟨(combine_topics_no_input_mutation ⟨[[⟨"u", "t", "s"⟩]]⟩ ⟨[]⟩
      [{ seed_links := some 0, title := some "T" }]).1 0 (by decide),
   (combine_topics_no_input_mutation ⟨[[⟨"u", "t", "s"⟩]]⟩ ⟨[]⟩
      [{ seed_links := some 0, title := some "T" }]).2.2.1 1 (by decide)⟩

/-- `firstSeen` over a one-element extension. -/
theorem firstSeen_append_singleton (l : List String) (x : String) :
    firstSeen (l ++ [x]) =
      if x ∈ firstSeen l then firstSeen l else firstSeen l ++ [x] := by
  rw [firstSeen, List.foldl_append]
  rfl

/-- `firstSeen` has the same elements as the list. -/
theorem mem_firstSeen (l : List String) (a : String) : a ∈ firstSeen l ↔ a ∈ l := by
  induction l using List.reverseRecOn generalizing a with
  | nil => simp [firstSeen]
  | append_singleton l x ih =>
    rw [firstSeen_append_singleton]
    by_cases hx : x ∈ firstSeen l
    · rw [if_pos hx, ih a, List.mem_append, List.mem_singleton]
      constructor
      · exact Or.inl
      · rintro (h | rfl)
        · exact h
        · exact (ih _).mp hx
    · rw [if_neg hx]
      simp [ih]

/-- `firstSeen` lists each element once. -/
theorem nodup_firstSeen (l : List String) : (firstSeen l).Nodup := by
  induction l using List.reverseRecOn with
  | nil => simp [firstSeen]
  | append_singleton l x ih =>
    rw [firstSeen_append_singleton]
    split
    · exact ih
    · next hx =>
      simpa [List.nodup_append] using ⟨ih, hx⟩

/-- The first occurrence of a present element is found in the left part. -/
theorem firstOccIdx_append_left (l l' : List String) (a : String) (h : a ∈ l) :
    firstOccIdx (l ++ l') a = firstOccIdx l a := by
  induction l with
  | nil => cases h
  | cons b t ih =>
    by_cases hb : b = a
    · simp [firstOccIdx, hb]
    · have ht : a ∈ t := by
        rcases List.mem_cons.mp h with h1 | h1
        · exact absurd h1.symm hb
        · exact h1
      simp [firstOccIdx, hb, ih ht]

/-- A present element's first occurrence lies inside the list. -/
theorem firstOccIdx_lt_length (l : List String) (a : String) (h : a ∈ l) :
    firstOccIdx l a < l.length := by
  induction l with
  | nil => cases h
  | cons b t ih =>
    by_cases hb : b = a
    · simp [firstOccIdx, hb]
    · have ht : a ∈ t := by
        rcases List.mem_cons.mp h with h1 | h1
        · exact absurd h1.symm hb
        · exact h1
      simpa [firstOccIdx, hb] using Nat.succ_lt_succ (ih ht)

/-- A fresh element appended at the end first occurs at the old length. -/
theorem firstOccIdx_append_self (l : List String) (x : String) (h : x ∉ l) :
    firstOccIdx (l ++ [x]) x = l.length := by
  induction l with
  | nil => simp [firstOccIdx]
  | cons b t ih =>
    have hb : ¬ b = x := fun he => h (he ▸ List.mem_cons_self b t)
    simpa [firstOccIdx, hb] using ih (fun ht => h (List.mem_cons_of_mem b ht))

/-- The keys of `firstSeen` are strictly ordered by first occurrence. -/
theorem firstSeen_pairwise (l : List String) :
    (firstSeen l).Pairwise (fun a b => firstOccIdx l a < firstOccIdx l b) := by
  induction l using List.reverseRecOn with
  | nil => simp [firstSeen]
  | append_singleton l x ih =>
    have hmono : ∀ a b, a ∈ firstSeen l → b ∈ firstSeen l →
        firstOccIdx l a < firstOccIdx l b →
        firstOccIdx (l ++ [x]) a < firstOccIdx (l ++ [x]) b := by
      intro a b ha hb hlt
      rw [firstOccIdx_append_left l [x] a ((mem_firstSeen l a).mp ha),
        firstOccIdx_append_left l [x] b ((mem_firstSeen l b).mp hb)]
      exact hlt
    rw [firstSeen_append_singleton]
    split
    · next hx =>
      exact List.Pairwise.imp_of_mem (fun ha hb h => hmono _ _ ha hb h) ih
    · next hx =>
      have hxl : x ∉ l := fun h => hx ((mem_firstSeen l x).mpr h)
      rw [List.pairwise_append]
      refine ⟨List.Pairwise.imp_of_mem (fun ha hb h => hmono _ _ ha hb h) ih,
        List.pairwise_singleton _ _, ?_⟩
      intro a ha b hb
      rw [List.mem_singleton] at hb
      subst hb
      rw [firstOccIdx_append_left l [b] a ((mem_firstSeen l a).mp ha),
        firstOccIdx_append_self l b hxl]
      exact firstOccIdx_lt_length l a ((mem_firstSeen l a).mp ha)

/-- The counting loop of lines 48-53 builds exactly the (first-seen-ordered)
association of each distinct mention text with its mention count. -/
theorem foldl_bumpCount_eq (l : List String) :
    l.foldl bumpCount [] = (firstSeen l).map (fun n => (n, l.count n)) := by
  induction l using List.reverseRecOn with
  | nil => rfl
  | append_singleton l x ih =>
    rw [List.foldl_append, ih, firstSeen_append_singleton]
    have hkeys : ((firstSeen l).map (fun n => (n, l.count n))).map Prod.fst =
        firstSeen l := by
      simp [List.map_map, Function.comp_def]
    by_cases hx : x ∈ firstSeen l
    · rw [if_pos hx]
      show bumpCount _ x = _
      rw [bumpCount, if_pos (by rw [hkeys]; exact hx), List.map_map]
      refine List.map_congr_left ?_
      intro n hn
      by_cases hnx : n = x
      · subst hnx
        simp [Function.comp_def, List.count_append]
      · simp [Function.comp_def, hnx, List.count_append, List.count_singleton,
          Ne.symm hnx]
    · rw [if_neg hx]
      show bumpCount _ x = _
      have hxl : x ∉ l := fun h => hx ((mem_firstSeen l x).mpr h)
      rw [bumpCount, if_neg (by rw [hkeys]; exact hx), List.map_append]
      congr 1
      · refine List.map_congr_left ?_
        intro n hn
        have hnx : ¬ x = n := fun he => hxl (he.symm ▸ (mem_firstSeen l n).mp hn)
        simp [List.count_append, List.count_singleton, hnx]
      · have : l.count x = 0 := List.count_eq_zero.mpr hxl
        simp [List.count_append, this]

/-- Insertion permutes `x :: l`. -/
theorem insertDescBy_perm {α β : Type} [LinearOrder β] (key : α → β) (x : α)
    (l : List α) : (insertDescBy key x l).Perm (x :: l) := by
  induction l with
  | nil => exact List.Perm.refl _
  | cons y ys ih =>
    rw [insertDescBy]
    split
    · exact List.Perm.refl _
    · exact (ih.cons y).trans (List.Perm.swap x y ys)

/-- The stable sort permutes its input. -/
theorem sortDescBy_perm {α β : Type} [LinearOrder β] (key : α → β)
    (l : List α) : (sortDescBy key l).Perm l := by
  induction l with
  | nil => exact List.Perm.refl _
  | cons x xs ih =>
    exact (insertDescBy_perm key x (sortDescBy key xs)).trans (ih.cons x)

/-- Inserting an element that originally preceded all of `l` keeps the sorted
list sorted (descending by key) and tie-ordered by `Q`. -/
theorem insertDescBy_pairwise {α β : Type} [LinearOrder β] (key : α → β)
    (Q : α → α → Prop) (x : α) (l : List α)
    (hl : l.Pairwise (fun a b => key b < key a ∨ (key b = key a ∧ Q a b)))
    (hQ : ∀ y ∈ l, Q x y) :
    (insertDescBy key x l).Pairwise
      (fun a b => key b < key a ∨ (key b = key a ∧ Q a b)) := by
  induction l with
  | nil => simp [insertDescBy]
  | cons y ys ih =>
    rw [insertDescBy]
    split
    · next hle =>
      refine List.Pairwise.cons ?_ hl
      intro z hz
      rcases List.mem_cons.mp hz with rfl | hz'
      · rcases lt_or_eq_of_le hle with hlt | heq
        · exact Or.inl hlt
        · exact Or.inr ⟨heq, hQ z (List.mem_cons_self _ _)⟩
      · have hyz := (List.pairwise_cons.mp hl).1 z hz'
        have hzy : key z ≤ key y := by
          rcases hyz with h | h
          · exact le_of_lt h
          · exact le_of_eq h.1
        rcases lt_or_eq_of_le (le_trans hzy hle) with hlt | heq
        · exact Or.inl hlt
        · exact Or.inr ⟨heq, hQ z (List.mem_cons_of_mem _ hz')⟩
    · next hgt =>
      have hyx : key x < key y := lt_of_not_le hgt
      obtain ⟨hy, hys⟩ := List.pairwise_cons.mp hl
      refine List.Pairwise.cons ?_
        (ih hys (fun z hz => hQ z (List.mem_cons_of_mem _ hz)))
      intro z hz
      have hz' : z ∈ x :: ys := (insertDescBy_perm key x ys).mem_iff.mp hz
      rcases List.mem_cons.mp hz' with rfl | hz2
      · exact Or.inl hyx
      · exact hy z hz2

/-- The stable descending sort: sorted by key descending, ties in original
`Q`-order. -/
theorem sortDescBy_pairwise {α β : Type} [LinearOrder β] (key : α → β)
    (Q : α → α → Prop) (l : List α) (hl : l.Pairwise Q) :
    (sortDescBy key l).Pairwise
      (fun a b => key b < key a ∨ (key b = key a ∧ Q a b)) := by
  induction l with
  | nil => simp [sortDescBy]
  | cons x xs ih =>
    obtain ⟨hx, hxs⟩ := List.pairwise_cons.mp hl
    show (insertDescBy key x (sortDescBy key xs)).Pairwise _
    exact insertDescBy_pairwise key Q x (sortDescBy key xs) (ih hxs)
      (fun y hy => hx y ((sortDescBy_perm key xs).mem_iff.mp hy))

/-- Claim C8: the local fallback extractor returns exactly the distinct
mention texts of the allow-listed entities (PERSON, ORG, GPE, EVENT,
WORK_OF_ART, LAW, PRODUCT), ordered by mention frequency descending, with
ties between equally frequent names broken by first-seen order in the
document. -/
theorem spacy_doc_to_entity_list_spec (ents : List SpacyEnt) :
    (∀ nm, nm ∈ spacy_doc_to_entity_list ents ↔
      ∃ e ∈ ents, e.label_ ∈ allowed_spacy_ner_labels ∧ e.text = nm) ∧
    (spacy_doc_to_entity_list ents).Nodup ∧
    (spacy_doc_to_entity_list ents).Pairwise (fun a b =>
      (spacyEntityTexts ents).count b < (spacyEntityTexts ents).count a ∨
      ((spacyEntityTexts ents).count b = (spacyEntityTexts ents).count a ∧
        firstOccIdx (spacyEntityTexts ents) a <
          firstOccIdx (spacyEntityTexts ents) b)) := by
  have hcounts : (spacyEntityTexts ents).foldl bumpCount [] =
      (firstSeen (spacyEntityTexts ents)).map
        (fun n => (n, (spacyEntityTexts ents).count n)) :=
    foldl_bumpCount_eq (spacyEntityTexts ents)
  have hout : spacy_doc_to_entity_list ents =
      (sortDescBy (fun p : String × Nat => p.2)
        ((spacyEntityTexts ents).foldl bumpCount [])).map Prod.fst := rfl
  have hperm : (sortDescBy (fun p : String × Nat => p.2)
        ((spacyEntityTexts ents).foldl bumpCount [])).Perm
      ((spacyEntityTexts ents).foldl bumpCount []) := sortDescBy_perm _ _
  have hkeysperm := hperm.map Prod.fst
  have hkeys : ((spacyEntityTexts ents).foldl bumpCount []).map Prod.fst =
      firstSeen (spacyEntityTexts ents) := by
    rw [hcounts, List.map_map]
    simp [Function.comp_def]
  refine ⟨?_, ?_, ?_⟩
  · intro nm
    rw [hout, hkeysperm.mem_iff, hkeys, mem_firstSeen]
    simp only [spacyEntityTexts, List.mem_map, List.mem_filter,
      decide_eq_true_eq]
    constructor
    · rintro ⟨e, ⟨he, hlab⟩, htext⟩
      exact ⟨e, he, hlab, htext⟩
    · rintro ⟨e, he, hlab, htext⟩
      exact ⟨e, ⟨he, hlab⟩, htext⟩
  · rw [hout]
    refine hkeysperm.nodup_iff.mpr ?_
    rw [hkeys]
    exact nodup_firstSeen (spacyEntityTexts ents)
  · rw [hout]
    have hQp : ((spacyEntityTexts ents).foldl bumpCount []).Pairwise
        (fun p q : String × Nat => firstOccIdx (spacyEntityTexts ents) p.1 <
          firstOccIdx (spacyEntityTexts ents) q.1) := by
      rw [hcounts, List.pairwise_map]
      exact firstSeen_pairwise (spacyEntityTexts ents)
    have hsorted := sortDescBy_pairwise (fun p : String × Nat => p.2)
      (fun p q : String × Nat => firstOccIdx (spacyEntityTexts ents) p.1 <
        firstOccIdx (spacyEntityTexts ents) q.1) _ hQp
    have hsnd : ∀ p ∈ sortDescBy (fun p : String × Nat => p.2)
        ((spacyEntityTexts ents).foldl bumpCount []),
        p.2 = (spacyEntityTexts ents).count p.1 := by
      intro p hp
      have hpmem : p ∈ (firstSeen (spacyEntityTexts ents)).map
          (fun n => (n, (spacyEntityTexts ents).count n)) := by
        rw [← hcounts]
        exact hperm.mem_iff.mp hp
      obtain ⟨n, _, rfl⟩ := List.mem_map.mp hpmem
      rfl
    rw [List.pairwise_map]
    refine List.Pairwise.imp_of_mem ?_ hsorted
    intro p q hp hq hpq
    rcases hpq with h | h
    · exact Or.inl (by rw [← hsnd p hp, ← hsnd q hq]; exact h)
    · exact Or.inr ⟨by rw [← hsnd p hp, ← hsnd q hq]; exact h.1, h.2⟩

/-- Lower-cased ASCII letters carry the expected character code. -/
theorem ofNat_toNat_lower (n : Nat) (h1 : 65 ≤ n) (h2 : n ≤ 90) :
    (Char.ofNat (n + 32)).toNat = n + 32 := by
  interval_cases n <;> decide

/-- A character outside the upper-case ASCII range is fixed by `lowerChar`. -/
theorem lowerChar_eq_self (c : Char) (h : ¬ (65 ≤ c.toNat ∧ c.toNat ≤ 90)) :
    lowerChar c = c := by
  simp only [lowerChar, if_neg h]

/-- `str.lower` is idempotent per character. -/
theorem lowerChar_fixes (c : Char) : lowerChar (lowerChar c) = lowerChar c := by
  by_cases h : 65 ≤ c.toNat ∧ c.toNat ≤ 90
  · have h1 : lowerChar c = Char.ofNat (c.toNat + 32) := by
      simp only [lowerChar, if_pos h]
    have h2 : (lowerChar c).toNat = c.toNat + 32 := by
      rw [h1, ofNat_toNat_lower c.toNat h.1 h.2]
    exact lowerChar_eq_self _ (by omega)
  · rw [lowerChar_eq_self c h, lowerChar_eq_self c h]

/-- Members of a `takeWhile` satisfy the predicate. -/
theorem mem_takeWhile_pred {α : Type} {p : α → Bool} (l : List α) (a : α)
    (h : a ∈ l.takeWhile p) : p a = true := by
  induction l with
  | nil => cases h
  | cons c rest ih =>
    rw [List.takeWhile_cons] at h
    split at h
    · rcases List.mem_cons.mp h with rfl | h2
      · assumption
      · exact ih h2
    · cases h

/-- `takeWhile` over an all-satisfying list is the identity. -/
theorem takeWhile_all_pos {α : Type} {p : α → Bool} (l : List α)
    (h : ∀ a ∈ l, p a = true) : l.takeWhile p = l := by
  induction l with
  | nil => rfl
  | cons c rest ih =>
    rw [List.takeWhile_cons_of_pos (h c (List.mem_cons_self _ _))]
    rw [ih (fun a ha => h a (List.mem_cons_of_mem _ ha))]

/-- `dropWhile` over an all-satisfying list is empty. -/
theorem dropWhile_all_pos {α : Type} {p : α → Bool} (l : List α)
    (h : ∀ a ∈ l, p a = true) : l.dropWhile p = [] := by
  induction l with
  | nil => rfl
  | cons c rest ih =>
    rw [List.dropWhile_cons_of_pos (h c (List.mem_cons_self _ _))]
    exact ih (fun a ha => h a (List.mem_cons_of_mem _ ha))

/-- Unfolding: `splitWs` skips a whitespace head. -/
theorem splitWs_cons_ws {c : Char} (l : List Char) (h : wsChar c = true) :
    splitWs (c :: l) = splitWs l := by
  rw [splitWs]
  simp [h]

/-- Unfolding: `splitWs` cuts a token at a non-whitespace head. -/
theorem splitWs_cons_not_ws {c : Char} (l : List Char) (h : wsChar c = false) :
    splitWs (c :: l) = (c :: l.takeWhile (fun d => !(wsChar d))) ::
      splitWs (l.dropWhile (fun d => !(wsChar d))) := by
  rw [splitWs]
  simp [h]

/-- Tokens produced by `str.split()` are non-empty, whitespace-free, and made
of characters of the input. -/
theorem splitWs_props (l : List Char) :
    ∀ w ∈ splitWs l, w ≠ [] ∧ ∀ c ∈ w, wsChar c = false ∧ c ∈ l := by
  induction l using splitWs.induct with
  | case1 =>
    intro w hw
    rw [splitWs] at hw
    cases hw
  | case2 c rest hc ih =>
    intro w hw
    rw [splitWs_cons_ws rest hc] at hw
    have h := ih w hw
    exact ⟨h.1, fun d hd => ⟨(h.2 d hd).1, List.mem_cons_of_mem _ (h.2 d hd).2⟩⟩
  | case3 c rest hc ih =>
    intro w hw
    have hcf : wsChar c = false := by simpa using hc
    rw [splitWs_cons_not_ws rest hcf] at hw
    rcases List.mem_cons.mp hw with rfl | hw2
    · refine ⟨by simp, ?_⟩
      intro d hd
      rcases List.mem_cons.mp hd with rfl | hd2
      · exact ⟨hcf, List.mem_cons_self _ _⟩
      · have hdw := mem_takeWhile_pred rest d hd2
        exact ⟨by simpa using hdw,
          List.mem_cons_of_mem _ ((List.takeWhile_sublist _).subset hd2)⟩
    · have h := ih w hw2
      exact ⟨h.1, fun d hd => ⟨(h.2 d hd).1,
        List.mem_cons_of_mem _ ((List.dropWhile_sublist _).subset (h.2 d hd).2)⟩⟩

/-- `joinSpace` of a cons whose head token starts with `c2` starts with
`c2`. -/
theorem joinSpace_cons_cons (c2 : Char) (w2 : List Char)
    (ws2 : List (List Char)) :
    ∃ t, joinSpace ((c2 :: w2) :: ws2) = c2 :: t := by
  cases ws2 with
  | nil => exact ⟨w2, rfl⟩
  | cons a b => exact ⟨w2 ++ ' ' :: joinSpace (a :: b), rfl⟩

/-- `str.split()` inverts `" ".join` on non-empty whitespace-free tokens. -/
theorem splitWs_joinSpace (ts : List (List Char))
    (h : ∀ w ∈ ts, w ≠ [] ∧ ∀ c ∈ w, wsChar c = false) :
    splitWs (joinSpace ts) = ts := by
  induction ts with
  | nil =>
    show splitWs [] = []
    rw [splitWs]
  | cons w ws ih =>
    obtain ⟨hne, hw⟩ := h w (List.mem_cons_self _ _)
    obtain ⟨c, w', rfl⟩ := List.exists_cons_of_ne_nil hne
    have hall : ∀ d ∈ w', (fun d => !(wsChar d)) d = true := by
      intro d hd
      simpa using hw d (List.mem_cons_of_mem _ hd)
    cases ws with
    | nil =>
      show splitWs (c :: w') = [c :: w']
      rw [splitWs_cons_not_ws w' (hw c (List.mem_cons_self _ _))]
      rw [takeWhile_all_pos w' hall, dropWhile_all_pos w' hall]
      rw [splitWs]
    | cons w2 ws2 =>
      show splitWs ((c :: w') ++ ' ' :: joinSpace (w2 :: ws2)) = _
      rw [List.cons_append, splitWs_cons_not_ws _ (hw c (List.mem_cons_self _ _))]
      rw [List.takeWhile_append_of_pos hall, List.dropWhile_append_of_pos hall]
      rw [List.takeWhile_cons_of_neg (by decide), List.dropWhile_cons_of_neg (by decide)]
      rw [List.append_nil, splitWs_cons_ws _ (by decide)]
      rw [ih (fun v hv => h v (List.mem_cons_of_mem _ hv))]

/-- Unfolding: `strip_tags` keeps a non-`<` head. -/
theorem strip_tags_cons_of_ne (c : Char) (rest : List Char) (hc : ¬ c = '<') :
    strip_tags (c :: rest) = c :: strip_tags rest := by
  rw [strip_tags, if_neg hc]

/-- Unfolding: a `<` with no completed tag is kept. -/
theorem strip_tags_cons_keep (rest : List Char)
    (h : rest.takeWhile (fun d => d != '>') = [] ∨
         rest.dropWhile (fun d => d != '>') = []) :
    strip_tags ('<' :: rest) = '<' :: strip_tags rest := by
  rw [strip_tags, if_pos rfl]
  split
  · rfl
  · rfl
  · rcases h with h | h <;> simp_all

/-- Unfolding: a completed `<([^>]+)>` match is deleted. -/
theorem strip_tags_cons_match (rest : List Char) (g : Char) (after : List Char)
    (htake : rest.takeWhile (fun d => d != '>') ≠ [])
    (hdrop : rest.dropWhile (fun d => d != '>') = g :: after) :
    strip_tags ('<' :: rest) = strip_tags after := by
  rw [strip_tags, if_pos rfl]
  split
  · simp_all
  · simp_all
  · simp_all

/-- `strip_tags` only keeps characters of its input. -/
theorem mem_strip_tags (l : List Char) : ∀ c ∈ strip_tags l, c ∈ l := by
  induction l using strip_tags.induct with
  | case1 =>
    intro c hc
    rw [strip_tags] at hc
    cases hc
  | case2 rest htake ih =>
    intro d hd
    rw [strip_tags_cons_keep rest (Or.inl htake)] at hd
    rcases List.mem_cons.mp hd with rfl | hd2
    · exact List.mem_cons_self _ _
    · exact List.mem_cons_of_mem _ (ih d hd2)
  | case3 rest g t hdrop htake ih =>
    intro d hd
    rw [strip_tags_cons_keep rest (Or.inr hdrop)] at hd
    rcases List.mem_cons.mp hd with rfl | hd2
    · exact List.mem_cons_self _ _
    · exact List.mem_cons_of_mem _ (ih d hd2)
  | case4 rest g t g2 after hdrop htake ih =>
    intro d hd
    rw [strip_tags_cons_match rest g2 after (by rw [htake]; simp) hdrop] at hd
    have hdd : d ∈ rest.dropWhile (fun d => d != '>') := by
      rw [hdrop]
      exact List.mem_cons_of_mem _ (ih d hd)
    exact List.mem_cons_of_mem _ ((List.dropWhile_sublist _).subset hdd)
  | case5 c rest hc ih =>
    intro d hd
    rw [strip_tags_cons_of_ne c rest hc] at hd
    rcases List.mem_cons.mp hd with rfl | hd2
    · exact List.mem_cons_self _ _
    · exact List.mem_cons_of_mem _ (ih d hd2)

/-- `strip_tags` is the identity on `<`-free text. -/
theorem strip_tags_eq_self (l : List Char) (h : ∀ c ∈ l, ¬ c = '<') :
    strip_tags l = l := by
  induction l with
  | nil => rw [strip_tags]
  | cons c rest ih =>
    rw [strip_tags_cons_of_ne c rest (h c (List.mem_cons_self _ _))]
    rw [ih (fun d hd => h d (List.mem_cons_of_mem _ hd))]

/-- Characters of `strip_punctuation` output: never punctuation, and either
from the input or an inserted space. -/
theorem mem_strip_punctuation (l : List Char) :
    ∀ c ∈ strip_punctuation l, punctChar c = false ∧ (c ∈ l ∨ c = ' ') := by
  induction l using strip_punctuation.induct with
  | case1 =>
    intro c hc
    rw [strip_punctuation] at hc
    cases hc
  | case2 c rest hc ih =>
    intro d hd
    rw [strip_punctuation] at hd
    simp only [if_pos hc] at hd
    rcases List.mem_cons.mp hd with rfl | hd2
    · exact ⟨by decide, Or.inr rfl⟩
    · have h := ih d hd2
      refine ⟨h.1, ?_⟩
      rcases h.2 with h2 | h2
      · exact Or.inl (List.mem_cons_of_mem _ ((List.dropWhile_sublist _).subset h2))
      · exact Or.inr h2
  | case3 c rest hc ih =>
    intro d hd
    rw [strip_punctuation] at hd
    simp only [if_neg hc] at hd
    rcases List.mem_cons.mp hd with rfl | hd2
    · exact ⟨by simpa using hc, Or.inl (List.mem_cons_self _ _)⟩
    · have h := ih d hd2
      refine ⟨h.1, ?_⟩
      rcases h.2 with h2 | h2
      · exact Or.inl (List.mem_cons_of_mem _ h2)
      · exact Or.inr h2

/-- `strip_punctuation` is the identity on punctuation-free text. -/
theorem strip_punctuation_eq_self (l : List Char)
    (h : ∀ c ∈ l, punctChar c = false) : strip_punctuation l = l := by
  induction l with
  | nil => rw [strip_punctuation]
  | cons c rest ih =>
    rw [strip_punctuation]
    simp only [h c (List.mem_cons_self _ _), Bool.false_eq_true, if_false]
    rw [ih (fun d hd => h d (List.mem_cons_of_mem _ hd))]

/-- Characters of `strip_multiple_whitespaces` output come from the input or
are inserted spaces. -/
theorem mem_strip_ws (l : List Char) :
    ∀ c ∈ strip_multiple_whitespaces l, c ∈ l ∨ c = ' ' := by
  induction l using strip_multiple_whitespaces.induct with
  | case1 =>
    intro c hc
    rw [strip_multiple_whitespaces] at hc
    cases hc
  | case2 c rest hc ih =>
    intro d hd
    rw [strip_multiple_whitespaces] at hd
    simp only [if_pos hc] at hd
    rcases List.mem_cons.mp hd with rfl | hd2
    · exact Or.inr rfl
    · rcases ih d hd2 with h2 | h2
      · exact Or.inl (List.mem_cons_of_mem _ ((List.dropWhile_sublist _).subset h2))
      · exact Or.inr h2
  | case3 c rest hc ih =>
    intro d hd
    rw [strip_multiple_whitespaces] at hd
    simp only [if_neg hc] at hd
    rcases List.mem_cons.mp hd with rfl | hd2
    · exact Or.inl (List.mem_cons_self _ _)
    · rcases ih d hd2 with h2 | h2
      · exact Or.inl (List.mem_cons_of_mem _ h2)
      · exact Or.inr h2

/-- `strip_multiple_whitespaces` walks through whitespace-free text
unchanged. -/
theorem strip_ws_append_of_not_ws (w t : List Char)
    (h : ∀ c ∈ w, wsChar c = false) :
    strip_multiple_whitespaces (w ++ t) = w ++ strip_multiple_whitespaces t := by
  induction w with
  | nil => rfl
  | cons c w' ih =>
    rw [List.cons_append, strip_multiple_whitespaces]
    simp only [h c (List.mem_cons_self _ _), Bool.false_eq_true, if_false]
    rw [ih (fun d hd => h d (List.mem_cons_of_mem _ hd)), List.cons_append]

/-- `strip_multiple_whitespaces` fixes a single-space join of non-empty
whitespace-free tokens. -/
theorem strip_ws_joinSpace (ts : List (List Char))
    (h : ∀ w ∈ ts, w ≠ [] ∧ ∀ c ∈ w, wsChar c = false) :
    strip_multiple_whitespaces (joinSpace ts) = joinSpace ts := by
  induction ts with
  | nil => rw [show joinSpace [] = [] from rfl, strip_multiple_whitespaces]
  | cons w ws ih =>
    obtain ⟨hne, hw⟩ := h w (List.mem_cons_self _ _)
    cases ws with
    | nil =>
      show strip_multiple_whitespaces w = w
      have := strip_ws_append_of_not_ws w [] hw
      rw [List.append_nil] at this
      rw [this, strip_multiple_whitespaces, List.append_nil]
    | cons w2 ws2 =>
      show strip_multiple_whitespaces (w ++ ' ' :: joinSpace (w2 :: ws2)) = _
      rw [strip_ws_append_of_not_ws w _ hw]
      congr 1
      rw [strip_multiple_whitespaces]
      simp only [if_pos (by decide : wsChar ' ' = true)]
      obtain ⟨hne2, hw2⟩ := h w2 (List.mem_cons_of_mem _ (List.mem_cons_self _ _))
      obtain ⟨c2, w2', rfl⟩ := List.exists_cons_of_ne_nil hne2
      obtain ⟨t, ht⟩ := joinSpace_cons_cons c2 w2' ws2
      rw [ht, List.dropWhile_cons_of_neg (by
        simpa using hw2 c2 (List.mem_cons_self _ _)), ← ht]
      rw [ih (fun v hv => h v (List.mem_cons_of_mem _ hv))]

/-- Characters of a join are token characters or the joining space. -/
theorem mem_joinSpace (ts : List (List Char)) :
    ∀ c ∈ joinSpace ts, c = ' ' ∨ ∃ w ∈ ts, c ∈ w := by
  induction ts with
  | nil =>
    intro c hc
    cases hc
  | cons w ws ih =>
    cases ws with
    | nil =>
      intro c hc
      exact Or.inr ⟨w, List.mem_cons_self _ _, hc⟩
    | cons w2 ws2 =>
      intro c hc
      rcases List.mem_append.mp hc with h1 | h2
      · exact Or.inr ⟨w, List.mem_cons_self _ _, h1⟩
      · rcases List.mem_cons.mp h2 with rfl | h3
        · exact Or.inl rfl
        · rcases ih c h3 with h4 | ⟨w', hw', hc'⟩
          · exact Or.inl h4
          · exact Or.inr ⟨w', List.mem_cons_of_mem _ hw', hc'⟩

/-- Mapping a function that fixes every member is the identity. -/
theorem map_lowerChar_id (l : List Char) (h : ∀ c ∈ l, lowerChar c = c) :
    l.map lowerChar = l := by
  induction l with
  | nil => rfl
  | cons c rest ih =>
    rw [List.map_cons, h c (List.mem_cons_self _ _),
      ih (fun d hd => h d (List.mem_cons_of_mem _ hd))]

/-- The tokens of `preprocess_doc` are the non-stopword tokens of the
filtered text (the final `" ".join` + `split()` round-trip is the
identity). -/
theorem preprocess_doc_tokens (l : List Char) :
    preprocess_doc l =
      (splitWs (strip_numeric (strip_multiple_whitespaces (strip_punctuation
        (strip_tags (l.map lowerChar)))))).filter (fun w => !(isStopword w)) := by
  rw [preprocess_doc, preprocess_string, remove_stopwords]
  refine splitWs_joinSpace _ ?_
  intro w hw
  have hw2 := List.mem_filter.mp hw
  have hp := splitWs_props _ w hw2.1
  exact ⟨hp.1, fun c hc => (hp.2 c hc).1⟩

/-- Every token of `preprocess_doc` is non-empty, not a stopword, and made of
non-whitespace, non-punctuation, non-digit, lower-case-fixed characters. -/
theorem preprocess_doc_token_props (l : List Char) :
    ∀ w ∈ preprocess_doc l, w ≠ [] ∧ isStopword w = false ∧
      ∀ c ∈ w, wsChar c = false ∧ punctChar c = false ∧ digitChar c = false ∧
        lowerChar c = c := by
  intro w hw
  rw [preprocess_doc_tokens] at hw
  obtain ⟨hmem, hstop⟩ := List.mem_filter.mp hw
  have hprops := splitWs_props _ w hmem
  refine ⟨hprops.1, by simpa using hstop, ?_⟩
  intro c hc
  have hs4 : c ∈ strip_numeric (strip_multiple_whitespaces (strip_punctuation
      (strip_tags (l.map lowerChar)))) := (hprops.2 c hc).2
  have hdig : digitChar c = false := by
    have := (List.mem_filter.mp hs4).2
    simpa using this
  have hs3 : c ∈ strip_multiple_whitespaces (strip_punctuation
      (strip_tags (l.map lowerChar))) := (List.mem_filter.mp hs4).1
  rcases mem_strip_ws _ c hs3 with hs2 | rfl
  · obtain ⟨hpunct, hrest⟩ := mem_strip_punctuation _ c hs2
    have hlow : lowerChar c = c := by
      rcases hrest with hs1 | rfl
      · have hs0 := mem_strip_tags _ c hs1
        obtain ⟨d, -, rfl⟩ := List.mem_map.mp hs0
        exact lowerChar_fixes d
      · decide
    exact ⟨(hprops.2 c hc).1, hpunct, hdig, hlow⟩
  · exact absurd (hprops.2 _ hc).1 (by decide)

/-- Claim C9: text normalization is idempotent — running `preprocess_doc` on
the space-joined token sequence it produced returns the same token
sequence. -/
theorem preprocess_doc_idempotent (x : List Char) :
    preprocess_doc (joinSpace (preprocess_doc x)) = preprocess_doc x := by
  have htok := preprocess_doc_token_props x
  generalize hts : preprocess_doc x = ts at htok ⊢
  have hte : ∀ w ∈ ts, w ≠ [] ∧ ∀ c ∈ w, wsChar c = false := fun w hw =>
    ⟨(htok w hw).1, fun c hc => ((htok w hw).2.2 c hc).1⟩
  have hy : ∀ c ∈ joinSpace ts, punctChar c = false ∧ digitChar c = false ∧
      lowerChar c = c ∧ ¬ c = '<' := by
    intro c hc
    rcases mem_joinSpace ts c hc with rfl | ⟨w, hw, hcw⟩
    · exact ⟨by decide, by decide, by decide, by decide⟩
    · obtain ⟨hws, hpunct, hdig, hlow⟩ := (htok w hw).2.2 c hcw
      refine ⟨hpunct, hdig, hlow, ?_⟩
      intro he
      subst he
      exact absurd hpunct (by decide)
  rw [preprocess_doc, map_lowerChar_id _ (fun c hc => (hy c hc).2.2.1)]
  rw [preprocess_string]
  rw [strip_tags_eq_self _ (fun c hc => (hy c hc).2.2.2)]
  rw [strip_punctuation_eq_self _ (fun c hc => (hy c hc).1)]
  rw [strip_ws_joinSpace ts hte]
  rw [strip_numeric, List.filter_eq_self.mpr (fun c hc => by
    simpa using (hy c hc).2.1)]
  rw [remove_stopwords, splitWs_joinSpace ts hte,
    List.filter_eq_self.mpr (fun w hw => by simpa using (htok w hw).2.1)]
  exact splitWs_joinSpace ts hte
